import Mathlib

/-!
# Verification of the mcgen Monte Carlo particle-transport library

A shallow embedding of the core of the `mcgen` crate (photon transport
through a piecewise-homogeneous 2-D medium, cross-sections, tabulated
functions, and a Welford statistics accumulator), together with proofs
about the embedded operations.

Floating-point (`f64`) arithmetic is modelled as exact arithmetic in a
linear ordered field (instantiated at `ℚ` for concrete evaluations and at
`ℝ` where transcendental functions are involved).
-/

namespace Mcgen


/-! ## Statistics accumulator (src/statistics.rs)

`Statistics<X>` stores a running count, mean and sum of squared
deviations and is updated with Welford's algorithm.  The value type and
its variance type are both modelled by the field `α`. -/

/-- State of `Statistics<X>` (src/statistics.rs): running `count`,
`mean` and `sum_of_squares`. -/
structure Statistics (α : Type) where
  count : ℕ
  mean : α
  sum_of_squares : α
deriving DecidableEq

variable {α : Type} [LinearOrderedField α]

/-- `Statistics::new()`: all fields at their `Default` (zero) values. -/
def Statistics.new : Statistics α := ⟨0, 0, 0⟩

/-- `Statistics::push(x)`: increment the counter, update the mean with
`delta / count`, then recompute the deviation and update the sum of
squares (Welford's algorithm, in exactly the order of the source). -/
def Statistics.push (s : Statistics α) (x : α) : Statistics α :=
  let count := s.count + 1
  let delta := x - s.mean
  let mean := s.mean + delta / (count : α)
  let delta_2 := x - mean
  ⟨count, mean, s.sum_of_squares + delta * delta_2⟩

/-- `Statistics::variance()`: `Some(sum_of_squares / (count - 1))` when
`count > 1`, `None` otherwise.  The subtraction `count - 1` is the `u32`
(here `ℕ`) subtraction of the source. -/
def Statistics.variance (s : Statistics α) : Option α :=
  if 1 < s.count then some (s.sum_of_squares / ((s.count - 1 : ℕ) : α)) else none

/-- `Statistics::from_iter`: push every sample of a finite sequence into
a fresh accumulator (the `FromIterator` impl of the source). -/
def statsOf (xs : List α) : Statistics α := xs.foldl Statistics.push Statistics.new

/-- Spec-side definition (not from the source): the direct two-pass
arithmetic mean, sum of the samples divided by their count. -/
def directMean (xs : List α) : α := xs.sum / (xs.length : α)

/-- Spec-side definition (not from the source): sum of squared
deviations from `c`, the inner sum of the two-pass variance formula. -/
def ssd (xs : List α) (c : α) : α := (xs.map (fun x => (x - c) ^ 2)).sum

/-! ## Geometry (src/mc/geometry.rs)

`Point` and `Direction` hold `f64` coordinates, modelled by the field
`α`.  `Direction::rotate` and `Direction::from_angle` apply the `f64`
intrinsics `cos`/`sin`; these are supplied by the `TrigOps` class and
instantiated with the genuine `Real.cos`/`Real.sin` at `ℝ`. -/

/-- The transcendental `f64` operations used by `Direction`.  At `ℝ`
they are the true cosine and sine. -/
class TrigOps (α : Type) where
  cos : α → α
  sin : α → α

noncomputable instance : TrigOps ℝ := ⟨Real.cos, Real.sin⟩

/-- At `ℚ` the trigonometric oracles are placeholders; they are only
ever used to evaluate trajectories that never take a scattering branch,
where their values are irrelevant. -/
instance : TrigOps ℚ := ⟨fun _ => 1, fun _ => 0⟩

/-- `Point` (src/mc/geometry.rs): a location in 2-D space. -/
structure Point (α : Type) where
  x : α
  y : α
deriving DecidableEq

/-- `Direction` (src/mc/geometry.rs): a direction vector `(dx, dy)`,
normalized to length 1 by its constructors. -/
structure Direction (α : Type) where
  dx : α
  dy : α
deriving DecidableEq

/-- `Point::step(d, length)`: move the point by `length` along `d`. -/
def Point.step (p : Point α) (d : Direction α) (length : α) : Point α :=
  ⟨p.x + d.dx * length, p.y + d.dy * length⟩

/-- `Direction::new(dx, dy)`: normalize the vector `(dx, dy)` by its
euclidean length.  Stated at `ℝ` because of the square root. -/
noncomputable def Direction.new (dx dy : ℝ) : Direction ℝ :=
  let len := Real.sqrt (dx * dx + dy * dy)
  ⟨dx / len, dy / len⟩

/-- `Direction::from_angle(angle)`: the unit vector at the given
counter-clockwise angle from the positive X-axis. -/
def Direction.from_angle [TrigOps α] (angle : α) : Direction α :=
  ⟨TrigOps.cos angle, TrigOps.sin angle⟩

/-- `Direction::rotate(angle)`: rotate the direction counter-clockwise
by `angle`. -/
def Direction.rotate [TrigOps α] (d : Direction α) (angle : α) : Direction α :=
  ⟨d.dx * TrigOps.cos angle - d.dy * TrigOps.sin angle,
   d.dx * TrigOps.sin angle + d.dy * TrigOps.cos angle⟩

/-- Squared euclidean norm of a direction vector (`dx² + dy²`); the
class invariant states that it equals 1. -/

def Direction.norm2 (d : Direction α) : α := d.dx * d.dx + d.dy * d.dy

/-! ## Photon (src/mc/particle.rs) -/

/-- `Error` (src/mc/particle.rs): the error type of the moving
functions of `Photon`. -/
inductive GeomError where
  | WrongDirection
deriving DecidableEq

/-- `Photon` (src/mc/particle.rs): a location, a direction and an
energy. -/
structure Photon (α : Type) where
  location : Point α
  direction : Direction α
  energy : α
deriving DecidableEq

/-- `Photon::step(length)`: move the photon forward by `length`.  The
source mutates `self` and returns `Result<(), Error>`; this is modelled
by returning the (possibly updated) photon together with the optional
error, so that the `Err` case visibly leaves the photon unchanged. -/
def Photon.step (p : Photon α) (length : α) : Photon α × Option GeomError :=
  if 0 < length then
    ({ p with location := p.location.step p.direction length }, none)
  else
    (p, some GeomError.WrongDirection)

/-- `Photon::go_to_x(x)`: step forward until the X-coordinate reaches
`x` (fails via `step` when the direction points away from it). -/
def Photon.go_to_x (p : Photon α) (x : α) : Photon α × Option GeomError :=
  let dx := x - p.location.x
  let scale := dx / p.direction.dx
  p.step scale

/-! ## Experiment interface and transport engine (src/mc/experiment.rs)

The `Experiment` trait is modelled as a structure of functions.  Each
stochastic trait method receives, in the source, a random-number
generator `rng`; here every random draw is made explicit: `ρ` is the
type of the per-step randomness consumed by the experiment's methods,
and the exponential free-path sample drawn inside `propagate` is passed
as an explicit argument. -/

/-- `Material` (src/mc/experiment.rs). -/
inductive Material where
  | Air
  | Absorber
  | Detector
deriving DecidableEq

/-- `FreePath` (src/mc/experiment.rs): either a fixed free path or an
exponentially distributed one with the given mean. -/
inductive FreePath (α : Type) where
  | Fix (length : α)
  | Exp (mean : α)
deriving DecidableEq

/-- `Event` (src/mc/experiment.rs). -/
inductive Event where
  | Nothing
  | CoherentScatter
  | IncoherentScatter
  | Absorbed
deriving DecidableEq

/-- `ParticleStatus` (src/mc/experiment.rs). -/
inductive ParticleStatus where
  | Lost
  | Propagating
  | Detected
deriving DecidableEq

/-- A panic of the transport engine: `propagate` unwraps the result of
`photon.step(scale)` with `.expect("`scale` cannot be negative")`. -/
inductive Panic where
  | ScaleExpectFailed
deriving DecidableEq

/-- The `Experiment` trait (src/mc/experiment.rs) as a record of its
methods.  The photon source is modelled separately (the emitted photons
are inputs of `simulate_particle`). -/
structure Experiment (α ρ : Type) where
  x_start : α
  get_material : Point α → Material
  get_mean_free_path : Material → α → FreePath α
  gen_event : Material → α → ρ → Event
  gen_coherent_scatter : Material → α → ρ → α
  gen_incoherent_scatter : Material → α → ρ → α × α

/-- The step length computed at the top of `propagate`
(src/mc/experiment.rs lines 196-206): the material at the photon's
current location selects the free-path law; a `Fix` law yields its
literal value and an `Exp` law yields the sample drawn from the
exponential distribution (passed here as the explicit `expSample`). -/
def stepScale (exp : Experiment α ρ) (photon : Photon α) (expSample : α) : α :=
  match exp.get_mean_free_path (exp.get_material photon.location) photon.energy with
  | FreePath.Fix scale => scale
  | FreePath.Exp _mean => expSample

/-- `propagate` (src/mc/experiment.rs): one transport step.  Moves the
photon by the sampled free path (a failing `step` hits the `.expect`
and panics), classifies the trial `Lost` when the photon falls behind
`x_start`, and otherwise draws an event at the new location. -/
def propagate [TrigOps α] (exp : Experiment α ρ) (photon : Photon α)
    (expSample : α) (r : ρ) : Except Panic (ParticleStatus × Photon α) :=
  match photon.step (stepScale exp photon expSample) with
  | (_, some _) => Except.error Panic.ScaleExpectFailed
  | (photon, none) =>
    if photon.location.x < exp.x_start then
      Except.ok (ParticleStatus.Lost, photon)
    else
      let material := exp.get_material photon.location
      let event := exp.gen_event material photon.energy r
      match event with
      | Event.Nothing => Except.ok (ParticleStatus.Propagating, photon)
      | Event.Absorbed =>
        match material with
        | Material.Detector => Except.ok (ParticleStatus.Detected, photon)
        | _ => Except.ok (ParticleStatus.Lost, photon)
      | Event.CoherentScatter =>
        let angle := exp.gen_coherent_scatter material photon.energy r
        Except.ok (ParticleStatus.Propagating,
          { photon with direction := photon.direction.rotate angle })
      | Event.IncoherentScatter =>
        let res := exp.gen_incoherent_scatter material photon.energy r
        Except.ok (ParticleStatus.Propagating,
          { photon with direction := photon.direction.rotate res.1, energy := res.2 })

/-- Outcome of the inner loop of `simulate_particle`. -/
inductive TrialOutcome (α : Type) where
  | Detected (p : Photon α)
  | Lost
  | Panicked
  | OutOfFuel

/-- The inner loop of `simulate_particle`: repeat `propagate` until the
photon is detected or lost.  The loop is unbounded in the source; here
it carries explicit fuel, with `draws` supplying the random inputs of
each iteration. -/
def runTrial [TrigOps α] (exp : Experiment α ρ) :
    ℕ → Photon α → (ℕ → α × ρ) → TrialOutcome α
  | 0, _, _ => TrialOutcome.OutOfFuel
  | fuel + 1, photon, draws =>
    match propagate exp photon (draws 0).1 (draws 0).2 with
    | Except.error _ => TrialOutcome.Panicked
    | Except.ok (ParticleStatus.Detected, p) => TrialOutcome.Detected p
    | Except.ok (ParticleStatus.Lost, _) => TrialOutcome.Lost
    | Except.ok (ParticleStatus.Propagating, p) =>
      runTrial exp fuel p (fun i => draws (i + 1))

/-- `simulate_particle` (src/mc/experiment.rs): emit a photon (the
emitted photons and the per-step random draws of each trial are given
by the `trials` tape), reject it early when `go_to_x(x_start)` fails,
propagate it until it is detected or lost, and retry on loss.  The
unbounded retry loop carries explicit fuel; `none` means the fuel ran
out or the engine panicked. -/
def simulate_particle [TrigOps α] (exp : Experiment α ρ) :
    ℕ → (ℕ → Photon α × (ℕ → α × ρ)) → Option (Photon α)
  | 0, _ => none
  | fuel + 1, trials =>
    let trial := trials 0
    match (trial.1).go_to_x exp.x_start with
    | (_, some _) => simulate_particle exp fuel (fun i => trials (i + 1))
    | (photon, none) =>
      match runTrial exp fuel photon trial.2 with
      | TrialOutcome.Detected p => some p
      | TrialOutcome.Lost => simulate_particle exp fuel (fun i => trials (i + 1))
      | TrialOutcome.Panicked => none
      | TrialOutcome.OutOfFuel => none

/-! ## Concrete experiments used as witnesses -/

/-- An everything-is-detector experiment over `ℚ` used to exercise the
transport engine on a concrete trajectory. -/
def detExp : Experiment ℚ Unit where
  x_start := 0
  get_material := fun _ => Material.Detector
  get_mean_free_path := fun _ _ => FreePath.Fix 1
  gen_event := fun _ _ _ => Event.Absorbed
  gen_coherent_scatter := fun _ _ _ => 0
  gen_incoherent_scatter := fun _ _ _ => (0, 0)

/-- A photon emitted left of `detExp`, heading east. -/
def detPhoton : Photon ℚ := ⟨⟨-1, 0⟩, ⟨1, 0⟩, 1⟩

/-- Trial tape for `detExp`: every trial emits `detPhoton` and every
step draws the sample 1. -/
def detTrials : ℕ → Photon ℚ × (ℕ → ℚ × Unit) := fun _ => (detPhoton, fun _ => (1, ()))

/-! ## The Fixed(0) detector step (claim C1)

The experiment of claim C1: `x_start() = 0`, `Detector` at `x ≥ 10`
with free path `Fixed(0)`, `Air` elsewhere with `Exponential(1.0)`,
`choose_event` returning `Absorbed` only at the detector and `Nothing`
in air. -/

/-- The C1 experiment. -/
def c1Exp : Experiment ℚ Unit where
  x_start := 0
  get_material := fun p => if 10 ≤ p.x then Material.Detector else Material.Air
  get_mean_free_path := fun m _ =>
    match m with
    | Material.Detector => FreePath.Fix 0
    | _ => FreePath.Exp 1
  gen_event := fun m _ _ =>
    match m with
    | Material.Detector => Event.Absorbed
    | _ => Event.Nothing
  gen_coherent_scatter := fun _ _ _ => 0
  gen_incoherent_scatter := fun _ _ _ => (0, 0)

/-! ## Tabulated functions (src/function.rs)

`Function<X, Y>` stores the sample points of a piecewise-linear
function in two parallel vectors `xdata`/`ydata`, together with the
running minimum and maximum of `ydata`.  `call` looks its argument up
with `slice::binary_search_by` and interpolates linearly between the
two enclosing points; out-of-range arguments panic (modelled by
`Option`). -/

/-- The insertion index computed by `slice::binary_search_by` when the
key is absent: the length of the longest prefix of `xs` whose elements
are all `< x` (for a sorted slice this is the documented `Err` index of
the Rust standard library). -/
def insertionPoint (x : α) : List α → ℕ
  | [] => 0
  | y :: ys => if y < x then insertionPoint x ys + 1 else 0

/-- `slice::binary_search_by` on a sorted slice, by its documented
contract: `Sum.inl i` when the element at the insertion index equals
the key (Rust's `Ok(i)`), otherwise `Sum.inr` of the insertion index
(Rust's `Err(i)`). -/
def binarySearch (xs : List α) (x : α) : ℕ ⊕ ℕ :=
  let i := insertionPoint x xs
  match xs[i]? with
  | some y => if y = x then Sum.inl i else Sum.inr i
  | none => Sum.inr i

/-- `Function::interpolate` (src/function.rs): linear interpolation
between `(x0, y0)` and `(x1, y1)`. -/
def interpolate (x0 y0 x1 y1 x : α) : α := y0 + (y1 - y0) / (x1 - x0) * (x - x0)

/-- `Function<X, Y>` (src/function.rs), with both axes modelled by the
field `α`. -/
structure Function (α : Type) where
  xdata : List α
  ydata : List α
  ymin : α
  ymax : α
deriving DecidableEq

/-- `Function::domain()`: the half-open range from the first to the
last X-value; panics (`none`) when the data is empty. -/
def Function.domain (f : Function α) : Option (α × α) :=
  match f.xdata.head?, f.xdata.getLast? with
  | some start, some stop => some (start, stop)
  | _, _ => none

/-- `Function::call(x)` (src/function.rs): exact `ydata` lookup when
the binary search finds `x`; a panic (`none`) when the insertion index
is at either end of the data; otherwise linear interpolation between
the two adjacent points (an out-of-range vector index, impossible for
well-formed data, is also modelled by `none`). -/
def Function.call (f : Function α) (x : α) : Option α :=
  match binarySearch f.xdata x with
  | Sum.inl i => f.ydata[i]?
  | Sum.inr iend =>
    if iend = 0 ∨ iend = f.xdata.length then none
    else
      match f.xdata[iend - 1]?, f.ydata[iend - 1]?, f.xdata[iend]?, f.ydata[iend]? with
      | some x0, some y0, some x1, some y1 => some (interpolate x0 y0 x1 y1 x)
      | _, _, _, _ => none

/-- The concrete two-point table used to test `Function::call`. -/
def c9Fn : Function ℚ := ⟨[0, 1], [5, 7], 5, 7⟩

/-! ## Cross-sections (src/crosssection.rs)

The `f64` arithmetic of the cross-section code is modelled over `ℝ`
(the lookup parameter involves `acos` and `sin`).  The physical
constants are those of the `dimensioned` crate (CODATA 2014). -/

/-- The fine-structure constant `1/137` used by `r_e()`. -/
noncomputable def alphaFine : ℝ := 1 / 137

/-- The Bohr radius in meters (`dimensioned::si::R_BOHR`). -/
noncomputable def R_BOHR : ℝ := 52917721067 / 10 ^ 21

/-- `r_e()` (src/crosssection.rs): the classical electron radius
`R_BOHR * alpha * alpha`. -/
noncomputable def r_e : ℝ := R_BOHR * alphaFine * alphaFine

/-- The electron mass in kilograms (`dimensioned::si::M_E`). -/
noncomputable def M_E : ℝ := 910938356 / 10 ^ 39

/-- The speed of light in meters per second (`dimensioned::si::C0`). -/
def C0 : ℝ := 299792458

/-- `get_x` (src/crosssection.rs): the lookup parameter
`x = E * sin(theta / 2)` with `theta = arccos mu`. -/
noncomputable def get_x (energy mu : ℝ) : ℝ :=
  let angle := Real.arccos mu
  energy * Real.sin (angle / 2)

/-- `IncoherentCrossSection::compton_scatter` (src/crosssection.rs):
the Compton energy transfer `E / (1 + kappa * (1 - mu))` with
`kappa = E / (M_E * C0 * C0)` (an associated function; it does not use
`self`). -/
noncomputable def compton_scatter (energy mu : ℝ) : ℝ :=
  let kappa := energy / (M_E * C0 * C0)
  let kappa_antimu := kappa * (1 - mu)
  energy / (1 + kappa_antimu)

/-- `IncoherentCrossSection::klein_nishina` (src/crosssection.rs): the
closed-form Klein–Nishina cross-section (the `&self` receiver of the
source is unused). -/
noncomputable def klein_nishina (energy mu : ℝ) : ℝ :=
  let kappa := energy / (M_E * C0 * C0)
  let kappa_antimu := kappa * (1 - mu)
  let alpha_func := 1 / (1 + kappa_antimu)
  r_e * r_e / 2 * alpha_func * alpha_func * (alpha_func + kappa_antimu + mu * mu)

/-- `IncoherentCrossSection` (src/crosssection.rs): wraps the tabulated
incoherent scattering function. -/
structure IncoherentCrossSection where
  scattering_function : Function ℝ

/-- `IncoherentCrossSection::eval` (src/crosssection.rs):
`klein_nishina(energy, mu) * scattering_function(energy, mu)`, where
the scattering function is looked up at `get_x(energy, mu)` (a failed
lookup panics, modelled by `none`). -/
noncomputable def IncoherentCrossSection.eval (ics : IncoherentCrossSection)
    (energy mu : ℝ) : Option ℝ :=
  (ics.scattering_function.call (get_x energy mu)).map
    (fun s => klein_nishina energy mu * s)

/-- `IncoherentCrossSection::max` (src/crosssection.rs):
`klein_nishina(energy, 1)` times the global maximum of the tabulated
scattering function. -/
noncomputable def IncoherentCrossSection.max (ics : IncoherentCrossSection)
    (energy : ℝ) : ℝ :=
  klein_nishina energy 1 * ics.scattering_function.ymax

/-- The concrete scattering-function table used to exercise C5. -/
def c5Ics : IncoherentCrossSection := ⟨⟨[0, 2], [1, 3], 1, 3⟩⟩

/-! ## Properties -/

theorem statsOf_append_single (xs : List α) (x : α) :
    statsOf (xs ++ [x]) = (statsOf xs).push x := by
  simp [statsOf, List.foldl_append]

theorem ssd_append_single (xs : List α) (x c : α) :
    ssd (xs ++ [x]) c = ssd xs c + (x - c) ^ 2 := by
  simp [ssd]

theorem ssd_poly (xs : List α) (c : α) :
    ssd xs c =
      (xs.map (fun y => y ^ 2)).sum - 2 * c * xs.sum + (xs.length : α) * c ^ 2 := by
  induction xs with
  | nil => simp [ssd]
  | cons y ys ih =>
    simp only [ssd, List.map_cons, List.sum_cons, List.length_cons] at ih ⊢
    push_cast
    rw [ih]
    ring

/-- The central Welford invariant: after pushing a finite sequence, the
count is its length, the mean is the arithmetic mean and the sum of
squares is the sum of squared deviations from that mean. -/
theorem statsOf_spec (xs : List α) :
    (statsOf xs).count = xs.length ∧
    (statsOf xs).mean = directMean xs ∧
    (statsOf xs).sum_of_squares = ssd xs (directMean xs) := by
  induction xs using List.reverseRecOn with
  | nil => simp [statsOf, Statistics.new, directMean, ssd]
  | append_singleton xs x ih =>
    obtain ⟨hc, hm, hs⟩ := ih
    rw [statsOf_append_single]
    rcases Nat.eq_zero_or_pos xs.length with hn | hn
    · obtain rfl : xs = [] := List.length_eq_zero.mp hn
      simp [statsOf, Statistics.new, Statistics.push, directMean, ssd]
    · have hn0 : (xs.length : α) ≠ 0 := Nat.cast_ne_zero.mpr hn.ne'
      have hn1 : (xs.length : α) + 1 ≠ 0 := by positivity
      have hm2 : directMean (xs ++ [x]) = (xs.sum + x) / ((xs.length : α) + 1) := by
        simp only [directMean, List.sum_append, List.length_append, List.sum_cons,
          List.sum_nil, List.length_cons, List.length_nil]
        push_cast
        ring_nf
      have hmean : directMean xs + (x - directMean xs) / ((xs.length : α) + 1)
          = directMean (xs ++ [x]) := by
        rw [hm2]
        simp only [directMean]
        field_simp
        ring
      refine ⟨?_, ?_, ?_⟩
      · simp [Statistics.push, hc]
      · simp only [Statistics.push, hc]
        push_cast
        rw [hm]
        exact hmean
      · simp only [Statistics.push, hc]
        push_cast
        rw [hm, hs]
        rw [ssd_append_single, ssd_poly xs (directMean xs), ssd_poly xs (directMean (xs ++ [x]))]
        rw [hm2]
        simp only [directMean]
        field_simp
        ring

/-- C3: For every finite sequence of samples pushed into a `Statistics`
accumulator, over exact arithmetic, the online Welford `mean()` equals
the direct two-pass result (sum of the samples divided by their count),
and for the empty sequence `mean()` is the zero element. -/
theorem c3_welford_mean_eq_direct :
    (∀ xs : List ℝ, (statsOf xs).mean = directMean xs) ∧
    (statsOf ([] : List ℝ)).mean = 0 := by
  refine ⟨fun xs => (statsOf_spec xs).2.1, ?_⟩
  simp [statsOf, Statistics.new]

/-- C4: `variance()` returns `None` exactly when fewer than two samples
were pushed, and otherwise `Some` of `sum_of_squares / (count - 1)`,
which over exact arithmetic equals the two-pass Bessel-corrected sample
variance `Σ (x_i - mean)² / (n - 1)`. -/
theorem c4_variance_spec (xs : List α) :
    ((statsOf xs).variance = none ↔ xs.length < 2) ∧
    (2 ≤ xs.length →
      (statsOf xs).variance =
        some (ssd xs (directMean xs) / ((xs.length - 1 : ℕ) : α))) := by
  obtain ⟨hc, _, hs⟩ := statsOf_spec xs
  constructor
  · rw [Statistics.variance, hc]
    constructor
    · intro h
      by_contra hlen
      rw [if_pos (by omega)] at h
      exact Option.some_ne_none _ h
    · intro h
      rw [if_neg (by omega)]
  · intro h
    rw [Statistics.variance, hc, if_pos (by omega), hs]

/-- Witness for C4 at a concrete sample sequence. -/
theorem c4_variance_spec_witness :
    (statsOf [(1 : ℚ), 2, 4]).variance =
      some (ssd [(1 : ℚ), 2, 4] (directMean [(1 : ℚ), 2, 4]) / ((3 - 1 : ℕ) : ℚ)) :=
  (c4_variance_spec [(1 : ℚ), 2, 4]).2 (by decide)

/-! ## Theorems about `Photon.step` and the transport step -/

/-- C6: `Photon.step(length)` fails with the geometric error
`WrongDirection` and leaves the photon (location, direction and energy)
unchanged for every `length ≤ 0`, and succeeds for every `length > 0`. -/
theorem c6_photon_step_sign (p : Photon α) (length : α) :
    (length ≤ 0 → p.step length = (p, some GeomError.WrongDirection)) ∧
    (0 < length → (p.step length).2 = none) := by
  constructor
  · intro h
    rw [Photon.step, if_neg (not_lt.mpr h)]
  · intro h
    rw [Photon.step, if_pos h]

/-- Witness for C6 at a concrete photon and concrete lengths. -/
theorem c6_photon_step_sign_witness :
    (Photon.step ⟨⟨0, 0⟩, ⟨1, 0⟩, 1⟩ (-1 : ℚ)
      = (⟨⟨0, 0⟩, ⟨1, 0⟩, 1⟩, some GeomError.WrongDirection)) ∧
    (Photon.step (⟨⟨0, 0⟩, ⟨1, 0⟩, 1⟩ : Photon ℚ) 1).2 = none :=
  ⟨(c6_photon_step_sign _ _).1 (by norm_num), (c6_photon_step_sign _ _).2 (by norm_num)⟩

/-- C2: classification of a transport step once the photon has been
moved: behind `x_start` the trial is `Lost`; otherwise an event is
drawn at the new location, and the step is `Detected` iff the event is
`Absorbed` at `Detector` material, `Lost` for `Absorbed` elsewhere, and
`Propagating` for `Nothing`, `CoherentScatter` (rotating the direction)
and `IncoherentScatter` (rotating the direction and setting the new
energy). -/
theorem c2_propagate_classification [TrigOps α] (exp : Experiment α ρ)
    (photon : Photon α) (expSample : α) (r : ρ) (moved : Photon α)
    (hstep : photon.step (stepScale exp photon expSample) = (moved, none)) :
    (moved.location.x < exp.x_start →
      propagate exp photon expSample r = Except.ok (ParticleStatus.Lost, moved)) ∧
    (¬ moved.location.x < exp.x_start →
      (propagate exp photon expSample r = Except.ok (ParticleStatus.Detected, moved) ↔
        exp.gen_event (exp.get_material moved.location) moved.energy r = Event.Absorbed ∧
          exp.get_material moved.location = Material.Detector) ∧
      (exp.gen_event (exp.get_material moved.location) moved.energy r = Event.Absorbed →
        exp.get_material moved.location ≠ Material.Detector →
        propagate exp photon expSample r = Except.ok (ParticleStatus.Lost, moved)) ∧
      (exp.gen_event (exp.get_material moved.location) moved.energy r = Event.Nothing →
        propagate exp photon expSample r = Except.ok (ParticleStatus.Propagating, moved)) ∧
      (exp.gen_event (exp.get_material moved.location) moved.energy r = Event.CoherentScatter →
        propagate exp photon expSample r = Except.ok (ParticleStatus.Propagating,
          ⟨moved.location,
           moved.direction.rotate
             (exp.gen_coherent_scatter (exp.get_material moved.location) moved.energy r),
           moved.energy⟩)) ∧
      (exp.gen_event (exp.get_material moved.location) moved.energy r = Event.IncoherentScatter →
        propagate exp photon expSample r = Except.ok (ParticleStatus.Propagating,
          ⟨moved.location,
           moved.direction.rotate
             (exp.gen_incoherent_scatter (exp.get_material moved.location) moved.energy r).1,
           (exp.gen_incoherent_scatter (exp.get_material moved.location)
             moved.energy r).2⟩))) := by
  rw [propagate, hstep]
  dsimp only
  constructor
  · intro h
    rw [if_pos h]
  · intro h
    rw [if_neg h]
    cases hEv : exp.gen_event (exp.get_material moved.location) moved.energy r
    · simp [hEv]
    · simp [hEv]
    · simp [hEv]
    · cases hM : exp.get_material moved.location <;> simp [hEv, hM]

/-- A detected transport step ends with the photon on `Detector`
material, at or beyond `x_start`, and unmoved since the step's move. -/
theorem propagate_detected [TrigOps α] (exp : Experiment α ρ) (photon : Photon α)
    (expSample : α) (r : ρ) (p : Photon α)
    (h : propagate exp photon expSample r = Except.ok (ParticleStatus.Detected, p)) :
    exp.get_material p.location = Material.Detector ∧ exp.x_start ≤ p.location.x := by
  rw [propagate] at h
  rcases hs : photon.step (stepScale exp photon expSample) with ⟨q, err⟩
  rw [hs] at h
  cases err with
  | some e => simp at h
  | none =>
    dsimp only at h
    by_cases hx : q.location.x < exp.x_start
    · rw [if_pos hx] at h
      simp at h
    · rw [if_neg hx] at h
      cases hEv : exp.gen_event (exp.get_material q.location) q.energy r <;>
          rw [hEv] at h
      · simp at h
      · simp at h
      · simp at h
      · cases hM : exp.get_material q.location <;> rw [hM] at h
        · simp at h
        · simp at h
        · simp only [Except.ok.injEq, Prod.mk.injEq, true_and] at h
          obtain ⟨-, rfl⟩ := h
          exact ⟨hM, not_lt.mp hx⟩

/-- A detected trial satisfies the same property as a detected step. -/
theorem runTrial_detected [TrigOps α] (exp : Experiment α ρ) :
    ∀ (fuel : ℕ) (photon : Photon α) (draws : ℕ → α × ρ) (p : Photon α),
      runTrial exp fuel photon draws = TrialOutcome.Detected p →
      exp.get_material p.location = Material.Detector ∧ exp.x_start ≤ p.location.x := by
  intro fuel
  induction fuel with
  | zero =>
    intro photon draws p h
    simp [runTrial] at h
  | succ n ih =>
    intro photon draws p h
    rw [runTrial] at h
    rcases hprop : propagate exp photon (draws 0).1 (draws 0).2 with e | ⟨st, q⟩ <;>
        rw [hprop] at h
    · simp at h
    · cases st
      · simp at h
      · exact ih q (fun i => draws (i + 1)) p h
      · simp only [TrialOutcome.Detected.injEq] at h
        subst h
        exact propagate_detected exp photon (draws 0).1 (draws 0).2 _ hprop

/-- C10: whenever `simulate_particle` returns a photon, that photon's
final location lies on `Detector` material and is at or beyond
`x_start`: a photon is only ever returned from the `Detected` branch,
reached only after the `x_start` check passes and only when the
material at the unmoved final location is `Detector`. -/
theorem c10_simulate_detected [TrigOps α] (exp : Experiment α ρ) :
    ∀ (fuel : ℕ) (trials : ℕ → Photon α × (ℕ → α × ρ)) (p : Photon α),
      simulate_particle exp fuel trials = some p →
      exp.get_material p.location = Material.Detector ∧ exp.x_start ≤ p.location.x := by
  intro fuel
  induction fuel with
  | zero =>
    intro trials p h
    simp [simulate_particle] at h
  | succ n ih =>
    intro trials p h
    rw [simulate_particle] at h
    rcases hgo : (trials 0).1.go_to_x exp.x_start with ⟨q, err⟩
    rw [hgo] at h
    cases err with
    | some e => exact ih (fun i => trials (i + 1)) p h
    | none =>
      dsimp only at h
      rcases htrial : runTrial exp n q (trials 0).2 with p2 | - | - | - <;>
          rw [htrial] at h
      · simp only [Option.some.injEq] at h
        subst h
        exact runTrial_detected exp n q (trials 0).2 _ htrial
      · exact ih (fun i => trials (i + 1)) p h
      · simp at h
      · simp at h

/-- Witness for C10: on `detExp` the simulation concretely returns the
photon detected at `(1, 0)`, which lies on detector material past
`x_start`. -/
theorem c10_simulate_detected_witness :
    simulate_particle detExp 2 detTrials = some ⟨⟨1, 0⟩, ⟨1, 0⟩, 1⟩ ∧
    detExp.get_material (⟨⟨1, 0⟩, ⟨1, 0⟩, 1⟩ : Photon ℚ).location = Material.Detector ∧
    detExp.x_start ≤ (⟨⟨1, 0⟩, ⟨1, 0⟩, 1⟩ : Photon ℚ).location.x := by
  have hrun : simulate_particle detExp 2 detTrials = some ⟨⟨1, 0⟩, ⟨1, 0⟩, 1⟩ := by
    norm_num [simulate_particle, runTrial, propagate, stepScale, detExp, detPhoton,
      detTrials, Photon.go_to_x, Photon.step, Point.step]
  exact ⟨hrun, c10_simulate_detected detExp 2 detTrials _ hrun⟩

/-- Witness for C2: a concrete moved photon on `detExp`, classified
`Detected` because the drawn event is `Absorbed` on detector
material. -/
theorem c2_propagate_classification_witness :
    propagate detExp ⟨⟨0, 0⟩, ⟨1, 0⟩, 1⟩ 1 () =
      Except.ok (ParticleStatus.Detected, (⟨⟨1, 0⟩, ⟨1, 0⟩, 1⟩ : Photon ℚ)) :=
  (((c2_propagate_classification detExp ⟨⟨0, 0⟩, ⟨1, 0⟩, 1⟩ 1 ()
    ⟨⟨1, 0⟩, ⟨1, 0⟩, 1⟩
    (by norm_num [Photon.step, stepScale, detExp, Point.step])).2
    (by norm_num [detExp])).1).mpr ⟨rfl, rfl⟩

/-- C1 (code-bug exhibit): a transport step that begins on the
detector, where the free-path law returns `Fixed(0)`, does **not**
resolve the interaction: `Photon::step(0)` returns
`Err(WrongDirection)` (its guard requires a strictly positive length)
and `propagate`'s `.expect` on that result panics, for every
exponential sample and randomness value. -/
theorem c1_fix_zero_step_panics :
    ∀ (expSample : ℚ) (r : Unit),
      propagate c1Exp ⟨⟨10, 0⟩, ⟨1, 0⟩, 1⟩ expSample r =
        Except.error Panic.ScaleExpectFailed := by
  intro expSample r
  have hscale : stepScale c1Exp ⟨⟨10, 0⟩, ⟨1, 0⟩, 1⟩ expSample = 0 := by
    norm_num [stepScale, c1Exp]
  rw [propagate, hscale]
  norm_num [Photon.step]

theorem insertionPoint_le_length (x : α) : ∀ xs : List α, insertionPoint x xs ≤ xs.length := by
  intro xs
  induction xs with
  | nil => simp [insertionPoint]
  | cons z zs ih =>
    rw [insertionPoint]
    split
    · simpa using ih
    · simp

theorem lt_x_of_lt_insertionPoint (x : α) :
    ∀ (xs : List α) (i : ℕ), i < insertionPoint x xs →
      ∀ y, xs[i]? = some y → y < x := by
  intro xs
  induction xs with
  | nil => simp [insertionPoint]
  | cons z zs ih =>
    intro i hi y hy
    rw [insertionPoint] at hi
    by_cases hz : z < x
    · rw [if_pos hz] at hi
      cases i with
      | zero =>
        simp only [List.getElem?_cons_zero, Option.some.injEq] at hy
        exact hy ▸ hz
      | succ j =>
        rw [List.getElem?_cons_succ] at hy
        exact ih j (by omega) y hy
    · rw [if_neg hz] at hi
      omega

theorem le_x_of_get_insertionPoint (x : α) :
    ∀ (xs : List α) (y : α), xs[insertionPoint x xs]? = some y → x ≤ y := by
  intro xs
  induction xs with
  | nil => simp [insertionPoint]
  | cons z zs ih =>
    intro y hy
    rw [insertionPoint] at hy
    by_cases hz : z < x
    · rw [if_pos hz, List.getElem?_cons_succ] at hy
      exact ih y hy
    · rw [if_neg hz] at hy
      simp only [List.getElem?_cons_zero, Option.some.injEq] at hy
      exact hy ▸ not_lt.mp hz

theorem insertionPoint_eq_length_of_all_lt (x : α) :
    ∀ xs : List α, (∀ y ∈ xs, y < x) → insertionPoint x xs = xs.length := by
  intro xs
  induction xs with
  | nil => simp [insertionPoint]
  | cons z zs ih =>
    intro h
    rw [insertionPoint, if_pos (h z (List.mem_cons_self z zs)), List.length_cons]
    rw [ih fun y hy => h y (List.mem_cons_of_mem z hy)]

/-- Every successful lookup is an exact table value or a linear
interpolation between two adjacent table points enclosing the
argument. -/
theorem call_structure (f : Function α) (x v : α) (h : f.call x = some v) :
    (∃ i : ℕ, f.xdata[i]? = some x ∧ f.ydata[i]? = some v) ∨
    (∃ (i : ℕ) (x0 y0 x1 y1 : α), f.xdata[i]? = some x0 ∧ f.ydata[i]? = some y0 ∧
      f.xdata[i + 1]? = some x1 ∧ f.ydata[i + 1]? = some y1 ∧
      x0 < x ∧ x < x1 ∧ v = interpolate x0 y0 x1 y1 x) := by
  rw [Function.call] at h
  rcases hbs : binarySearch f.xdata x with i | iend <;> rw [hbs] at h <;> dsimp only at h
  · left
    refine ⟨i, ?_, h⟩
    rw [binarySearch] at hbs
    rcases hg : f.xdata[insertionPoint x f.xdata]? with - | y <;> rw [hg] at hbs <;>
        dsimp only at hbs
    · simp at hbs
    · by_cases hy : y = x
      · rw [if_pos hy] at hbs
        simp only [Sum.inl.injEq] at hbs
        rw [← hbs, hg, hy]
      · rw [if_neg hy] at hbs
        simp at hbs
  · right
    have hiend : iend = insertionPoint x f.xdata := by
      rw [binarySearch] at hbs
      rcases hg : f.xdata[insertionPoint x f.xdata]? with - | y <;> rw [hg] at hbs <;>
          dsimp only at hbs
      · simpa using hbs.symm
      · by_cases hy : y = x
        · rw [if_pos hy] at hbs
          simp at hbs
        · rw [if_neg hy] at hbs
          simpa using hbs.symm
    by_cases h0 : iend = 0 ∨ iend = f.xdata.length
    · rw [if_pos h0] at h
      simp at h
    · rw [if_neg h0] at h
      push_neg at h0
      rcases hx0 : f.xdata[iend - 1]? with - | x0 <;> rw [hx0] at h
      · simp at h
      rcases hy0 : f.ydata[iend - 1]? with - | y0 <;> rw [hy0] at h
      · simp at h
      rcases hx1 : f.xdata[iend]? with - | x1 <;> rw [hx1] at h
      · simp at h
      rcases hy1 : f.ydata[iend]? with - | y1 <;> rw [hy1] at h
      · simp at h
      simp only [Option.some.injEq] at h
      have hpos : 1 ≤ iend := Nat.one_le_iff_ne_zero.mpr h0.1
      have hlt0 : x0 < x := by
        refine lt_x_of_lt_insertionPoint x f.xdata (iend - 1) (by omega) x0 hx0
      have hlt1 : x < x1 := by
        have hle : x ≤ x1 := by
          refine le_x_of_get_insertionPoint x f.xdata x1 ?_
          rw [← hiend]
          exact hx1
        rcases hle.lt_or_eq with hlt | heq
        · exact hlt
        · exfalso
          rw [binarySearch] at hbs
          rcases hg : f.xdata[insertionPoint x f.xdata]? with - | y <;> rw [hg] at hbs <;>
              dsimp only at hbs
          · rw [← hiend, hx1] at hg
            exact Option.noConfusion hg
          · rw [← hiend, hx1, Option.some.injEq] at hg
            by_cases hy : y = x
            · rw [if_pos hy] at hbs
              exact Sum.noConfusion hbs
            · exact hy (hg ▸ heq.symm)
      refine ⟨iend - 1, x0, y0, x1, y1, hx0, hy0, ?_, ?_, hlt0, hlt1, h.symm⟩
      · rw [show iend - 1 + 1 = iend by omega]
        exact hx1
      · rw [show iend - 1 + 1 = iend by omega]
        exact hy1

/-- A value interpolated strictly between two enclosing points lies
between any common bounds of the endpoint values. -/
theorem interpolate_bounds (x0 y0 x1 y1 x lo hi : α) (h0 : x0 < x) (h1 : x < x1)
    (hy0l : lo ≤ y0) (hy0u : y0 ≤ hi) (hy1l : lo ≤ y1) (hy1u : y1 ≤ hi) :
    lo ≤ interpolate x0 y0 x1 y1 x ∧ interpolate x0 y0 x1 y1 x ≤ hi := by
  have hd : (0 : α) < x1 - x0 := by linarith
  have hv : interpolate x0 y0 x1 y1 x = y0 + (y1 - y0) * ((x - x0) / (x1 - x0)) := by
    rw [interpolate]
    ring
  set t := (x - x0) / (x1 - x0) with ht
  have ht0 : 0 < t := div_pos (by linarith) hd
  have ht1 : t < 1 := (div_lt_one hd).mpr (by linarith)
  have e1 : 0 ≤ (1 - t) * (y0 - lo) := mul_nonneg (by linarith) (by linarith)
  have e2 : 0 ≤ t * (y1 - lo) := mul_nonneg (by linarith) (by linarith)
  have e3 : 0 ≤ (1 - t) * (hi - y0) := mul_nonneg (by linarith) (by linarith)
  have e4 : 0 ≤ t * (hi - y1) := mul_nonneg (by linarith) (by linarith)
  rw [hv]
  constructor <;> nlinarith [e1, e2, e3, e4]

/-- A successful lookup in a table whose `ydata` lies within given
bounds stays within those bounds (no extrapolation). -/
theorem call_bounds (f : Function α) (x v lo hi : α)
    (hlo : ∀ y ∈ f.ydata, lo ≤ y) (hhi : ∀ y ∈ f.ydata, y ≤ hi)
    (h : f.call x = some v) : lo ≤ v ∧ v ≤ hi := by
  rcases call_structure f x v h with ⟨i, hx, hy⟩ |
      ⟨i, x0, y0, x1, y1, hx0, hy0, hx1, hy1, hlt0, hlt1, rfl⟩
  · have hm : v ∈ f.ydata := List.getElem?_mem hy
    exact ⟨hlo v hm, hhi v hm⟩
  · have hm0 : y0 ∈ f.ydata := List.getElem?_mem hy0
    have hm1 : y1 ∈ f.ydata := List.getElem?_mem hy1
    exact interpolate_bounds x0 y0 x1 y1 x lo hi hlt0 hlt1
      (hlo y0 hm0) (hhi y0 hm0) (hlo y1 hm1) (hhi y1 hm1)

theorem binarySearch_inl (xs : List α) (x : α) (i : ℕ)
    (h : binarySearch xs x = Sum.inl i) :
    i = insertionPoint x xs ∧ xs[i]? = some x := by
  rw [binarySearch] at h
  rcases hg : xs[insertionPoint x xs]? with - | y <;> rw [hg] at h <;> dsimp only at h
  · simp at h
  · by_cases hy : y = x
    · rw [if_pos hy] at h
      simp only [Sum.inl.injEq] at h
      subst h
      rw [hg, hy]
      exact ⟨rfl, rfl⟩
    · rw [if_neg hy] at h
      simp at h

theorem binarySearch_inr (xs : List α) (x : α) (iend : ℕ)
    (h : binarySearch xs x = Sum.inr iend) :
    iend = insertionPoint x xs ∧ xs[iend]? ≠ some x := by
  rw [binarySearch] at h
  rcases hg : xs[insertionPoint x xs]? with - | y <;> rw [hg] at h <;> dsimp only at h
  · simp only [Sum.inr.injEq] at h
    subst h
    rw [hg]
    exact ⟨rfl, by simp⟩
  · by_cases hy : y = x
    · rw [if_pos hy] at h
      simp at h
    · rw [if_neg hy] at h
      simp only [Sum.inr.injEq] at h
      subst h
      rw [hg]
      exact ⟨rfl, by simpa using hy⟩

theorem sorted_mem_le_getLast :
    ∀ (xs : List α), xs.Sorted (· < ·) → ∀ (tl : α), xs.getLast? = some tl →
      ∀ y ∈ xs, y ≤ tl := by
  intro xs
  induction xs with
  | nil => simp
  | cons z zs ih =>
    intro hs tl htl y hy
    cases zs with
    | nil =>
      simp only [List.getLast?_singleton, Option.some.injEq] at htl
      simp only [List.mem_singleton] at hy
      rw [hy, htl]
    | cons w ws =>
      have htl2 : (w :: ws).getLast? = some tl := by
        rw [← htl, List.getLast?_cons_cons]
      rcases List.mem_cons.mp hy with rfl | hy2
      · have hmem : tl ∈ w :: ws := List.mem_of_getLast?_eq_some htl2
        exact le_of_lt ((List.sorted_cons.mp hs).1 tl hmem)
      · exact ih (List.sorted_cons.mp hs).2 tl htl2 y hy2

/-- C9 (amended): for a non-empty sorted table whose `domain()` reports
the half-open range `[hd, tl)`, `call(x)` fails exactly when `x` lies
outside the **closed** interval `[hd, tl]` (at `x = tl` the binary
search finds an exact match, so the call succeeds even though `tl` is
outside the reported half-open domain), and any returned value is
obtained by exact lookup or linear interpolation between the two
adjacent tabulated points enclosing `x` — never by extrapolation. -/
theorem c9_call_closed_domain (f : Function α) (x hd tl : α)
    (hsorted : f.xdata.Sorted (· < ·))
    (hlen : f.ydata.length = f.xdata.length)
    (hdom : f.domain = some (hd, tl)) :
    (f.call x = none ↔ x < hd ∨ tl < x) ∧
    (∀ v, f.call x = some v →
      (∃ i : ℕ, f.xdata[i]? = some x ∧ f.ydata[i]? = some v) ∨
      (∃ (i : ℕ) (x0 y0 x1 y1 : α), f.xdata[i]? = some x0 ∧ f.ydata[i]? = some y0 ∧
        f.xdata[i + 1]? = some x1 ∧ f.ydata[i + 1]? = some y1 ∧
        x0 < x ∧ x < x1 ∧ v = interpolate x0 y0 x1 y1 x)) := by
  have hhead : f.xdata.head? = some hd ∧ f.xdata.getLast? = some tl := by
    rw [Function.domain] at hdom
    rcases hh : f.xdata.head? with - | a <;> rw [hh] at hdom <;>
        rcases hl : f.xdata.getLast? with - | b <;> rw [hl] at hdom <;>
        simp_all
  obtain ⟨hhd, htl⟩ := hhead
  obtain ⟨z, zs, hxd⟩ : ∃ z zs, f.xdata = z :: zs := by
    cases hxe : f.xdata with
    | nil => rw [hxe] at hhd; simp at hhd
    | cons z zs => exact ⟨z, zs, rfl⟩
  have hzhd : z = hd := by
    rw [hxd] at hhd
    simpa using hhd
  have hlenpos : 0 < f.xdata.length := by rw [hxd]; simp
  refine ⟨⟨?_, ?_⟩, fun v hv => call_structure f x v hv⟩
  · -- `call x = none` forces x outside the closed interval
    intro hnone
    by_contra hout
    push_neg at hout
    obtain ⟨hxhd, hxtl⟩ := hout
    rw [Function.call] at hnone
    rcases hbs : binarySearch f.xdata x with i | iend <;> rw [hbs] at hnone <;>
        dsimp only at hnone
    · obtain ⟨-, hget⟩ := binarySearch_inl f.xdata x i hbs
      have hilt : i < f.xdata.length := by
        by_contra hge
        rw [List.getElem?_eq_none (by omega)] at hget
        exact Option.noConfusion hget
      rw [List.getElem?_eq_none_iff] at hnone
      omega
    · obtain ⟨hie, hne⟩ := binarySearch_inr f.xdata x iend hbs
      have hip0 : iend ≠ 0 := by
        intro h0
        have hget0 : f.xdata[iend]? = some z := by
          rw [h0, hxd]
          simp
        have hxz : x ≤ z := by
          refine le_x_of_get_insertionPoint x f.xdata z ?_
          rw [← hie]
          exact hget0
        have hxhd2 : x = hd := le_antisymm (hzhd ▸ hxz) hxhd
        exact hne (by rw [hget0, hzhd, hxhd2])
      have hiplen : iend ≠ f.xdata.length := by
        intro hlen2
        have hgl : f.xdata[f.xdata.length - 1]? = some tl := by
          rw [← List.getLast?_eq_getElem? f.xdata]
          exact htl
        have : tl < x := by
          refine lt_x_of_lt_insertionPoint x f.xdata (f.xdata.length - 1) ?_ tl hgl
          omega
        exact absurd this (not_lt.mpr hxtl)
      rw [if_neg (by tauto)] at hnone
      have hlt : iend < f.xdata.length := by
        have := insertionPoint_le_length x f.xdata
        omega
      obtain ⟨x0, hx0⟩ : ∃ a, f.xdata[iend - 1]? = some a :=
        ⟨_, List.getElem?_eq_getElem (by omega)⟩
      obtain ⟨y0, hy0⟩ : ∃ a, f.ydata[iend - 1]? = some a :=
        ⟨_, List.getElem?_eq_getElem (by omega)⟩
      obtain ⟨x1, hx1⟩ : ∃ a, f.xdata[iend]? = some a :=
        ⟨_, List.getElem?_eq_getElem (by omega)⟩
      obtain ⟨y1, hy1⟩ : ∃ a, f.ydata[iend]? = some a :=
        ⟨_, List.getElem?_eq_getElem (by omega)⟩
      rw [hx0, hy0, hx1, hy1] at hnone
      exact Option.noConfusion hnone
  · -- x outside the closed interval forces `call x = none`
    intro hout
    rcases hout with hlt | hgt
    · have hip : insertionPoint x f.xdata = 0 := by
        rw [hxd, insertionPoint, if_neg (by rw [hzhd]; exact not_lt.mpr (le_of_lt hlt))]
      rw [Function.call, binarySearch, hip]
      have hget0 : f.xdata[0]? = some z := by rw [hxd]; simp
      rw [hget0]
      dsimp only
      rw [if_neg (by rw [hzhd]; exact fun h => absurd h (ne_of_gt hlt))]
      dsimp only
      rw [if_pos (Or.inl rfl)]
    · have hip : insertionPoint x f.xdata = f.xdata.length := by
        refine insertionPoint_eq_length_of_all_lt x f.xdata fun y hy => ?_
        exact lt_of_le_of_lt (sorted_mem_le_getLast f.xdata hsorted tl htl y hy) hgt
      rw [Function.call, binarySearch, hip]
      rw [List.getElem?_eq_none (le_refl _)]
      dsimp only
      rw [if_pos (Or.inr rfl)]

/-- Counterexample to C9 as stated: `domain()` reports the half-open
range `[0, 1)`, the input `1` lies outside it, yet `call(1)` succeeds
(exact match of the last tabulated point) instead of failing. -/
theorem c9_counterexample :
    c9Fn.domain = some (0, 1) ∧ c9Fn.call 1 = some 7 ∧ ¬ ((1 : ℚ) < 1) := by
  refine ⟨rfl, ?_, lt_irrefl 1⟩
  norm_num [Function.call, binarySearch, insertionPoint, c9Fn]

/-- Witness for the amended C9 at a concrete out-of-range input. -/
theorem c9_call_closed_domain_witness : c9Fn.call 3 = none :=
  (c9_call_closed_domain c9Fn 3 0 1 (by decide) (by decide) rfl).1.mpr
    (Or.inr (by norm_num))

theorem mec2_pos : (0 : ℝ) < M_E * C0 * C0 := by
  norm_num [M_E, C0]

theorem r_e_pos : (0 : ℝ) < r_e := by
  norm_num [r_e, R_BOHR, alphaFine]

theorem klein_nishina_at_one (E : ℝ) : klein_nishina E 1 = r_e * r_e := by
  simp only [klein_nishina]
  norm_num

theorem klein_nishina_nonneg (E mu : ℝ) (hE : 0 ≤ E) (hmu : mu ≤ 1) :
    0 ≤ klein_nishina E mu := by
  simp only [klein_nishina]
  have hk : 0 ≤ E / (M_E * C0 * C0) := div_nonneg hE (le_of_lt mec2_pos)
  have ht : 0 ≤ E / (M_E * C0 * C0) * (1 - mu) := mul_nonneg hk (by linarith)
  have ha : 0 < 1 / (1 + E / (M_E * C0 * C0) * (1 - mu)) :=
    one_div_pos.mpr (by linarith)
  have hre : 0 < r_e * r_e / 2 := by nlinarith [r_e_pos]
  have hS : 0 ≤ 1 / (1 + E / (M_E * C0 * C0) * (1 - mu)) +
      E / (M_E * C0 * C0) * (1 - mu) + mu * mu := by
    nlinarith [mul_self_nonneg mu]
  exact mul_nonneg (mul_nonneg (mul_nonneg hre.le ha.le) ha.le) hS

theorem klein_nishina_le_at_one (E mu : ℝ) (hE : 0 ≤ E) (hmu1 : -1 ≤ mu) (hmu2 : mu ≤ 1) :
    klein_nishina E mu ≤ klein_nishina E 1 := by
  rw [klein_nishina_at_one]
  simp only [klein_nishina]
  set t := E / (M_E * C0 * C0) * (1 - mu) with htd
  have ht : 0 ≤ t := mul_nonneg (div_nonneg hE (le_of_lt mec2_pos)) (by linarith)
  have h1t : (0 : ℝ) < 1 + t := by linarith
  set a := 1 / (1 + t) with had
  have hta : a * (1 + t) = 1 := by
    rw [had]
    field_simp
  have ha0 : 0 < a := by
    rw [had]
    exact one_div_pos.mpr h1t
  have ha1 : a ≤ 1 := by
    rw [had, div_le_one h1t]
    linarith
  have hat : a * t = 1 - a := by nlinarith [hta]
  have haat : a * a * t = a * (1 - a) := by
    rw [mul_assoc, hat]
  have hmusq : mu * mu ≤ 1 := by nlinarith
  have e1 : 0 ≤ (1 - a) * (2 + a + a * a) := mul_nonneg (by linarith) (by nlinarith)
  have e2 : 0 ≤ a * a * (1 - mu * mu) := mul_nonneg (mul_self_nonneg a) (by linarith)
  have key : a * a * (a + t + mu * mu) ≤ 2 := by nlinarith [haat, e1, e2]
  have hC : 0 ≤ r_e * r_e / 2 := by nlinarith [r_e_pos]
  calc r_e * r_e / 2 * a * a * (a + t + mu * mu)
      = r_e * r_e / 2 * (a * a * (a + t + mu * mu)) := by ring
    _ ≤ r_e * r_e / 2 * 2 := mul_le_mul_of_nonneg_left key hC
    _ = r_e * r_e := by ring

/-- C5: the rejection-sampling envelope of the incoherent
cross-section is a true global bound: for every energy `E > 0` and
every `mu ∈ [-1, 1]` whose lookup point lies in the table's domain
(`eval` succeeds), and for a table whose tabulated values are
nonnegative and bounded by the stored global maximum,
`max(E) = klein_nishina(E, 1) * max S` dominates `eval(E, mu)`. -/
theorem c5_incoherent_max_bound (ics : IncoherentCrossSection) (E mu v : ℝ)
    (hE : 0 < E) (hmu1 : -1 ≤ mu) (hmu2 : mu ≤ 1)
    (hnn : ∀ y ∈ ics.scattering_function.ydata, 0 ≤ y)
    (hub : ∀ y ∈ ics.scattering_function.ydata, y ≤ ics.scattering_function.ymax)
    (heval : ics.eval E mu = some v) :
    v ≤ ics.max E := by
  rw [IncoherentCrossSection.eval] at heval
  rcases hcall : ics.scattering_function.call (get_x E mu) with - | s <;>
      rw [hcall] at heval
  · simp at heval
  · simp only [Option.map_some', Option.some.injEq] at heval
    obtain ⟨hs0, hs1⟩ := call_bounds ics.scattering_function (get_x E mu) s 0
      ics.scattering_function.ymax hnn hub hcall
    rw [IncoherentCrossSection.max, ← heval]
    calc klein_nishina E mu * s
        ≤ klein_nishina E 1 * s :=
          mul_le_mul_of_nonneg_right
            (klein_nishina_le_at_one E mu (le_of_lt hE) hmu1 hmu2) hs0
      _ ≤ klein_nishina E 1 * ics.scattering_function.ymax :=
          mul_le_mul_of_nonneg_left hs1
            (klein_nishina_nonneg E 1 (le_of_lt hE) le_rfl)

/-- Witness for C5: at `E = 1`, `mu = 1` the lookup point is `0`
(exact first table point), `eval` returns `klein_nishina 1 1 * 1` and
the envelope `max 1` dominates it. -/
theorem c5_incoherent_max_bound_witness :
    c5Ics.eval 1 1 = some (klein_nishina 1 1 * 1) ∧
    klein_nishina 1 1 * 1 ≤ c5Ics.max 1 := by
  have hx : get_x 1 1 = 0 := by
    simp [get_x, Real.arccos_one]
  have heval : c5Ics.eval 1 1 = some (klein_nishina 1 1 * 1) := by
    rw [IncoherentCrossSection.eval, hx]
    norm_num [Function.call, binarySearch, insertionPoint, c5Ics]
  refine ⟨heval, ?_⟩
  refine c5_incoherent_max_bound c5Ics 1 1 (klein_nishina 1 1 * 1) one_pos (by norm_num)
    le_rfl ?_ ?_ heval
  · intro y hy
    have hy2 : y = 1 ∨ y = 3 := by simpa [c5Ics] using hy
    rcases hy2 with rfl | rfl <;> norm_num
  · intro y hy
    have hy2 : y = 1 ∨ y = 3 := by simpa [c5Ics] using hy
    have hm : c5Ics.scattering_function.ymax = 3 := rfl
    rcases hy2 with rfl | rfl <;> norm_num [hm]

/-- C7: the Compton energy transfer is the pure function
`E / (1 + kappa * (1 - mu))` with `kappa = E / (m_e c^2)`, and at
`mu = 1` it returns exactly `E` for every energy. -/
theorem c7_compton_scatter :
    (∀ E mu : ℝ,
      compton_scatter E mu = E / (1 + E / (M_E * C0 * C0) * (1 - mu))) ∧
    (∀ E : ℝ, compton_scatter E 1 = E) := by
  constructor
  · intro E mu
    rfl
  · intro E
    simp [compton_scatter]

/-! ## Rotation invariants (claim C8), over `ℝ` with the genuine
trigonometric functions. -/

theorem trigOps_cos_real (x : ℝ) : TrigOps.cos x = Real.cos x := rfl

theorem trigOps_sin_real (x : ℝ) : TrigOps.sin x = Real.sin x := rfl

theorem norm2_rotate (d : Direction ℝ) (angle : ℝ) :
    (d.rotate angle).norm2 = d.norm2 := by
  simp only [Direction.rotate, Direction.norm2, trigOps_cos_real, trigOps_sin_real]
  linear_combination (d.dx * d.dx + d.dy * d.dy) * Real.sin_sq_add_cos_sq angle

theorem norm2_foldl_rotate (d : Direction ℝ) (h : d.norm2 = 1) :
    ∀ angles : List ℝ, (angles.foldl Direction.rotate d).norm2 = 1 := by
  intro angles
  induction angles generalizing d with
  | nil => simpa using h
  | cons a as ih =>
    rw [List.foldl_cons]
    exact ih (d.rotate a) (by rw [norm2_rotate, h])

theorem norm2_new (dx dy : ℝ) (h : dx * dx + dy * dy ≠ 0) :
    (Direction.new dx dy).norm2 = 1 := by
  have hnn : 0 ≤ dx * dx + dy * dy :=
    add_nonneg (mul_self_nonneg dx) (mul_self_nonneg dy)
  have hlen : Real.sqrt (dx * dx + dy * dy) * Real.sqrt (dx * dx + dy * dy)
      = dx * dx + dy * dy := Real.mul_self_sqrt hnn
  have hlen0 : Real.sqrt (dx * dx + dy * dy) ≠ 0 := by
    intro h0
    rw [h0, mul_zero] at hlen
    exact h hlen.symm
  simp only [Direction.new, Direction.norm2]
  rw [div_mul_div_comm, div_mul_div_comm, div_add_div_same, hlen]
  exact div_self h

theorem norm2_from_angle (angle : ℝ) : (Direction.from_angle angle).norm2 = 1 := by
  simp only [Direction.from_angle, Direction.norm2, trigOps_cos_real, trigOps_sin_real]
  linear_combination Real.sin_sq_add_cos_sq angle

/-- C8: over exact real arithmetic, rotating a direction by `angle` and
then by `-angle` restores the original `(dx, dy)`, and the unit-norm
invariant `dx² + dy² = 1` holds after any finite sequence of rotations
of a direction constructed by `new` (from a nonzero vector) or
`from_angle`. -/
theorem c8_rotate_invariants :
    (∀ (d : Direction ℝ) (angle : ℝ), (d.rotate angle).rotate (-angle) = d) ∧
    (∀ dx dy : ℝ, dx * dx + dy * dy ≠ 0 →
      ∀ angles : List ℝ,
        (angles.foldl Direction.rotate (Direction.new dx dy)).norm2 = 1) ∧
    (∀ (angle : ℝ) (angles : List ℝ),
      (angles.foldl Direction.rotate (Direction.from_angle angle)).norm2 = 1) := by
  refine ⟨?_, ?_, ?_⟩
  · intro d angle
    obtain ⟨dx, dy⟩ := d
    simp only [Direction.rotate, trigOps_cos_real, trigOps_sin_real, Real.cos_neg,
      Real.sin_neg, Direction.mk.injEq]
    have hpyth := Real.sin_sq_add_cos_sq angle
    constructor
    · linear_combination dx * hpyth
    · linear_combination dy * hpyth
  · intro dx dy h angles
    exact norm2_foldl_rotate (Direction.new dx dy) (norm2_new dx dy h) angles
  · intro angle angles
    exact norm2_foldl_rotate (Direction.from_angle angle) (norm2_from_angle angle) angles

/-- Witness for C8 at a concrete direction, vector and angle. -/
theorem c8_rotate_invariants_witness :
    ((Direction.mk (1 : ℝ) 0).rotate 1).rotate (-1) = Direction.mk (1 : ℝ) 0 ∧
    (([] : List ℝ).foldl Direction.rotate (Direction.new 3 4)).norm2 = 1 ∧
    (([1] : List ℝ).foldl Direction.rotate (Direction.from_angle 0)).norm2 = 1 :=
  ⟨c8_rotate_invariants.1 ⟨1, 0⟩ 1,
   c8_rotate_invariants.2.1 3 4 (by norm_num) [],
   c8_rotate_invariants.2.2 0 [1]⟩

end Mcgen

